import Mathlib

/-!
Verification development for the `cdc_tool` clock-domain-crossing analyzer
(`src/cdc_tool/parser.py` and `src/cdc_tool/analyzer.py`).

Python dictionaries are modelled as association lists that keep insertion
order (`List (String × α)`): `lookupA` is `dict.get`, `dictSet` is
`d[k] = v` (replacing in place, keeping the original position, appending a
fresh key at the end), `dictSetdefault` is `d.setdefault(k, v)`.  Python
sets of strings are modelled as `Finset String`.
-/

namespace Cdc

/-- `dict.get(key)`: the value at the first (in a real dict: only)
occurrence of the key. -/
def lookupA {α : Type} : List (String × α) → String → Option α
  | [], _ => none
  | (k, v) :: rest, key => if k = key then some v else lookupA rest key

/-- `d[k] = v`: replace the value at an existing key in place, otherwise
append the new entry at the end (Python dicts keep insertion order). -/
def dictSet {α : Type} : List (String × α) → String → α → List (String × α)
  | [], k, v => [(k, v)]
  | (k', v') :: rest, k, v =>
    if k' = k then (k', v) :: rest else (k', v') :: dictSet rest k v

/-- `d.setdefault(k, v)`: keep the dict unchanged when the key is present,
otherwise append the entry `(k, v)`. -/
def dictSetdefault {α : Type} (d : List (String × α)) (k : String) (v : α) :
    List (String × α) :=
  match lookupA d k with
  | some _ => d
  | none => d ++ [(k, v)]

/-- Apply `f` to the value stored at key `k` (mutating a looked-up object
in Python); no-op when the key is absent. -/
def updateValue {α : Type} : List (String × α) → String → (α → α) → List (String × α)
  | [], _, _ => []
  | (k', v) :: rest, k, f =>
    if k' = k then (k', f v) :: rest else (k', v) :: updateValue rest k f

/-- Does the character list start with the given pattern? -/
def beginsWith : List Char → List Char → Bool
  | _, [] => true
  | [], _ :: _ => false
  | h :: hs, p :: ps => h = p && beginsWith hs ps

/-- Python's substring test `pat in hay` on character lists. -/
def containsChars : List Char → List Char → Bool
  | [], pat => pat.isEmpty
  | h :: t, pat => beginsWith (h :: t) pat || containsChars t pat

/-- Python's string comparison `a <= b`: lexicographic by code point. -/
def charsLe : List Char → List Char → Bool
  | [], _ => true
  | _ :: _, [] => false
  | a :: as, b :: bs => if a < b then true else if b < a then false else charsLe as bs

/-- `a <= b` on strings, as Python compares them. -/
def strLe (a b : String) : Bool := charsLe a.data b.data

/-- Insert a string into an already sorted list, keeping it sorted. -/
def insertSorted (x : String) : List String → List String
  | [] => [x]
  | y :: ys => if strLe x y then x :: y :: ys else y :: insertSorted x ys

/-- Python's `sorted` on a list of strings (insertion sort; the call sites
sort dictionary keys, which are distinct, so stability is irrelevant). -/
def sortStrings (l : List String) : List String := l.foldr insertSorted []

/-- Numeric value of a digit character, as Python's `int(s, base)` reads
it (`0`-`9`, then letters case-insensitively). -/
def pyDigitVal (c : Char) : Option Nat :=
  if '0' ≤ c ∧ c ≤ '9' then some (c.toNat - '0'.toNat)
  else if 'a' ≤ c ∧ c ≤ 'z' then some (c.toNat - 'a'.toNat + 10)
  else if 'A' ≤ c ∧ c ≤ 'Z' then some (c.toNat - 'A'.toNat + 10)
  else none

/-- Digits of a non-empty string read in the given base; `none` when a
character is not a digit of the base (Python raises `ValueError`). -/
def digitsToNat (base : Nat) : List Char → Option Nat
  | [] => none
  | cs => go cs 0
where
  go : List Char → Nat → Option Nat
    | [], acc => some acc
    | c :: rest, acc =>
      match pyDigitVal c with
      | some v => if v < base then go rest (acc * base + v) else none
      | none => none

/-- Drop a `0b`/`0o`/`0x` prefix when it matches the base (Python's
`int(s, base)` accepts the matching prefix). -/
def dropBaseTag (base : Nat) (s : List Char) : List Char :=
  match s with
  | '0' :: c :: rest =>
    if (base = 2 ∧ (c = 'b' ∨ c = 'B')) ∨ (base = 8 ∧ (c = 'o' ∨ c = 'O'))
        ∨ (base = 16 ∧ (c = 'x' ∨ c = 'X')) then rest
    else s
  | _ => s

/-- Python's `int(s, base)` for an explicit base: optional sign, optional
matching base prefix, then digits. -/
def parseIntInBase (base : Nat) (s : List Char) : Option Int :=
  match s with
  | '-' :: rest => (digitsToNat base (dropBaseTag base rest)).map (fun n => -(n : Int))
  | '+' :: rest => (digitsToNat base (dropBaseTag base rest)).map (fun n => (n : Int))
  | _ => (digitsToNat base (dropBaseTag base s)).map (fun n => (n : Int))

/-- Python's `int(s, 0)`: base taken from a `0b`/`0o`/`0x` prefix, plain
decimal otherwise; a nonzero literal with a leading `0` is rejected. -/
def parseIntAuto (s : List Char) : Option Int :=
  match s with
  | '-' :: rest => (parseAutoMag rest).map (fun n => -(n : Int))
  | '+' :: rest => (parseAutoMag rest).map (fun n => (n : Int))
  | _ => (parseAutoMag s).map (fun n => (n : Int))
where
  parseAutoMag : List Char → Option Nat
    | [] => none
    | '0' :: c :: rest =>
      if c = 'b' ∨ c = 'B' then digitsToNat 2 rest
      else if c = 'o' ∨ c = 'O' then digitsToNat 8 rest
      else if c = 'x' ∨ c = 'X' then digitsToNat 16 rest
      else if ('0' :: c :: rest).all (· = '0') then some 0
      else none
    | ['0'] => some 0
    | cs => digitsToNat 10 cs

/-- Verilog expression nodes, as the analysis distinguishes them: plain
identifiers, integer constants, indexed references (`Pointer`),
concatenations, and any other node with children (handled generically by
the visitor). -/
inductive Expr where
  | ident (name : String)
  | intConst (value : String)
  | pointer (var : Expr) (ptr : Expr)
  | concat (elems : List Expr)
  | node (children : List Expr)

/-- The stage key `f"{name}[{index}]"` for a single bit of a register. -/
def bitStage (name : String) (index : Int) : String := s!"{name}[{index}]"

/-- `_evaluate_int`: statically evaluate an `IntConst` node.  Underscores
are removed; a literal with a base marker `'` is split and its digits are
read in the marked base (defaulting to 10 when the marker character is not
one of `b`/`h`/`o`/`d`, in which case the whole tail is the digit string);
otherwise the whole value is read as `int(value, 0)`. -/
def evaluateInt : Expr → Option Int
  | .intConst v =>
    let value := v.data.filter (fun c => c ≠ '_')
    if value.contains '\'' then
      let literal := (value.dropWhile (fun c => c ≠ '\'')).drop 1
      match literal with
      | [] => none
      | bc :: ds =>
        let baseChar := bc.toLower
        match lookupBase baseChar with
        | some base =>
          let digits := if ds.isEmpty then ['0'] else ds
          parseIntInBase base digits
        | none => parseIntInBase 10 literal
    else parseIntAuto value
  | _ => none
where
  lookupBase : Char → Option Nat
    | 'b' => some 2
    | 'h' => some 16
    | 'o' => some 8
    | 'd' => some 10
    | _ => none

-- `_flatten_concat`: recursively flatten nested concatenations into the
-- list of leaf expressions.
mutual
/-- See the comment above `mutual`: flattening of one node. -/
def flattenConcat : Expr → List Expr
  | .concat es => flattenConcatList es
  | .ident n => [.ident n]
  | .intConst v => [.intConst v]
  | .pointer v p => [.pointer v p]
  | .node cs => [.node cs]
/-- Flattening of each child of a concatenation, in order. -/
def flattenConcatList : List Expr → List Expr
  | [] => []
  | e :: rest => flattenConcat e ++ flattenConcatList rest
end

-- `_IdentifierCollector.collect`: the set of identifier names referenced
-- in an expression.  A `Pointer` over a plain identifier with a constant
-- index contributes `name[index]`, with a non-constant index just `name`;
-- the index subtree is always visited as well.
mutual
/-- See the comment above `mutual`: identifiers of one expression node. -/
def collectIds : Expr → Finset String
  | .ident n => {n}
  | .intConst _ => ∅
  | .pointer v p =>
    (match v with
     | .ident n =>
       match evaluateInt p with
       | some i => {bitStage n i}
       | none => {n}
     | .intConst w => collectIds (.intConst w)
     | .pointer a b => collectIds (.pointer a b)
     | .concat es => collectIds (.concat es)
     | .node cs => collectIds (.node cs)) ∪ collectIds p
  | .concat es => collectIdsList es
  | .node cs => collectIdsList cs
/-- Identifiers referenced by any child, visited generically. -/
def collectIdsList : List Expr → Finset String
  | [] => ∅
  | e :: rest => collectIds e ∪ collectIdsList rest
end

/-- `Net`: a named signal with a kind tag. -/
structure Net where
  name : String
  kind : String := "wire"
deriving DecidableEq

/-- `Register`: a sequential element.  `drivers` maps a stage key (the
register's own name, or `name[index]` for one bit) to the set of source
signal names driving that stage. -/
structure Register where
  name : String
  module : String
  clock : Option String := none
  bit_indices : Option (List Int) := none
  drivers : List (String × Finset String) := []
deriving DecidableEq

/-- Union `sources` into the set stored at `stage`, creating the entry
(whose fresh `set()` unioned with `sources` is just `sources`) when the
key is absent. -/
def recordInto : List (String × Finset String) → String → Finset String →
    List (String × Finset String)
  | [], stage, sources => [(stage, sources)]
  | (k, v) :: rest, stage, sources =>
    if k = stage then (k, v ∪ sources) :: rest
    else (k, v) :: recordInto rest stage sources

/-- `Register.record_drivers`:
`self.drivers.setdefault(stage, set()).update(sources)`. -/
def Register.record_drivers (r : Register) (stage : String) (sources : Finset String) :
    Register :=
  { r with drivers := recordInto r.drivers stage sources }

/-- `Module`: ports, nets and registers of one Verilog module. -/
structure Module where
  name : String
  ports : Finset String := ∅
  nets : List (String × Net) := []
  registers : List (String × Register) := []
deriving DecidableEq

/-- `DesignGraph`: mapping from module name to module. -/
structure DesignGraph where
  modules : List (String × Module)
deriving DecidableEq

/-- `iter_registers`: all registers of all modules, in dict order. -/
def iter_registers (design : DesignGraph) : List Register :=
  design.modules.flatMap (fun p => p.2.registers.map Prod.snd)

/-- The signal position of a `Sens` node: a plain identifier or some
other (indexed/indirect) expression. -/
inductive SensSig where
  | identSig (name : String)
  | otherSig
deriving DecidableEq

/-- One entry of a sensitivity list: a `Sens` node carries an edge-type
tag and a signal subtree; any other node kind is skipped by the clock
scan. -/
inductive SensEntry where
  | sens (type : String) (sig : SensSig)
  | other
deriving DecidableEq

/-- `_looks_like_reset`: case-insensitive substring match against the
token list `("rst", "reset", "areset", "srst", "clr")`.  Lowercasing is
done per character (`name.lower()`; the names involved are ASCII). -/
def looksLikeReset (name : String) : Bool :=
  let lowered := name.data.map Char.toLower
  ["rst", "reset", "areset", "srst", "clr"].any
    (fun tok => containsChars lowered tok.data)

/-- The scan loop of `_extract_clock`, with the `candidates` list replaced
by its only observed use, the last candidate appended so far: skip
non-`Sens` entries, non-edge entries and non-identifier signals; return
the first non-reset-looking edge signal at once; otherwise remember the
signal and, when the list is exhausted, return the last one remembered
(`candidates[-1]`), or `none` when there was none. -/
def extractClockAux : List SensEntry → Option String → Option String
  | [], last => last
  | entry :: rest, last =>
    match entry with
    | .sens ty (.identSig signal) =>
      if ty = "posedge" ∨ ty = "negedge" then
        if looksLikeReset signal then extractClockAux rest (some signal)
        else some signal
      else extractClockAux rest last
    | .sens _ .otherSig => extractClockAux rest last
    | .other => extractClockAux rest last

/-- `_extract_clock`: the functional clock of an always block's
sensitivity list.  (The guard `isinstance(sens, SensList)` of the source
is vacuous here: the embedding hands the entry list over directly.) -/
def extract_clock (sens : List SensEntry) : Option String :=
  extractClockAux sens none

/-- Left-hand side of an assignment: the source checks
`isinstance(left, Lvalue)` and bails out otherwise. -/
inductive LNode where
  | lvalue (var : Expr)
  | notLvalue

/-- Statements traversed inside an always block.  `skip` models an absent
`false_statement` of an `IfStatement`.  Nodes with no visit method are
walked generically and only these statement kinds have any effect. -/
inductive Stmt where
  | block (stmts : List Stmt)
  | ifStmt (cond : Expr) (thenS : Stmt) (elseS : Stmt)
  | skip
  | blocking (left : LNode) (right : Expr)
  | nonblocking (left : LNode) (right : Expr)

/-- A declaration inside a `Decl` node: `Reg` (with an optional constant
width, msb and lsb expressions), `Wire`, or anything else (ignored). -/
inductive DeclEntry where
  | reg (name : String) (width : Option (Expr × Expr))
  | wire (name : String)
  | otherDecl

/-- One item of a module body.  Instances are traversed for side effects
only and produce none, so they fall under `otherItem` together with every
other node kind the builder does not handle. -/
inductive Item where
  | decl (entries : List DeclEntry)
  | always (sens : List SensEntry) (stmt : Stmt)
  | inputPort (name : String)
  | outputPort (name : String)
  | inoutPort (name : String)
  | otherItem

/-- A parsed module definition (the builder's `visit_ModuleDef` walks only
`node.items`; the port list is not visited by it). -/
structure ModuleAST where
  name : String
  items : List Item

/-- `_bit_indices_from_width`: evaluate both bounds; when both are
constant, the inclusive range from msb to lsb (ascending when
`lsb >= msb`, else descending). -/
def bitIndicesFromWidth : Option (Expr × Expr) → Option (List Int)
  | none => none
  | some (msbE, lsbE) =>
    match evaluateInt msbE, evaluateInt lsbE with
    | some msb, some lsb =>
      if lsb ≥ msb then
        some ((List.range (lsb - msb).toNat.succ).map (fun i => msb + i))
      else
        some ((List.range (msb - lsb).toNat.succ).map (fun i => msb - i))
    | _, _ => none

/-- `_resolve_targets`: resolve an assignment target to a register of the
current module and a stage key.  The source returns `(Register, str)`
pairs; registers are keyed by their name, which this embedding returns
alongside the value. -/
def resolve_targets (m : Module) (node : Expr) : List (Register × String) :=
  match node with
  | .pointer v p =>
    match v with
    | .ident base =>
      (match lookupA m.registers base with
       | none => []
       | some register =>
         match evaluateInt p with
         | some index => [(register, bitStage base index)]
         | none => [(register, base)])
    | _ => []
  | .ident name =>
    (match lookupA m.registers name with
     | none => []
     | some register => [(register, name)])
  | _ => []

/-- `_pair_targets_with_rhs`: when the unique target is the whole register
(the stage key is the register's name), the register has a truthy (known,
non-empty) bit-index list and the right-hand side is a concatenation whose
flattened element count equals the number of bit indices, split the
assignment into one per-bit stage per declared index, pairing indices with
elements in order; otherwise keep a single stage driven by the whole
right-hand side. -/
def pair_targets_with_rhs (targets : List (Register × String)) (right : Expr) :
    List (Register × String × Expr) :=
  match targets with
  | [(register, stage)] =>
    match register.bit_indices, right with
    | some bits, .concat es =>
      if stage = register.name ∧ bits ≠ [] then
        let elements := flattenConcatList es
        if elements.length = bits.length then
          (bits.zip elements).map
            (fun p => (register, bitStage register.name p.1, p.2))
        else [(register, stage, right)]
      else [(register, stage, right)]
    | _, _ => [(register, stage, right)]
  | ts => ts.map (fun p => (p.1, p.2, right))

/-- The update `_handle_assignment` performs on one resolved
`(register, stage, expr)` triple: set the register's clock when the
enclosing clock is known and the clock is still unset, then record the
drivers of the stage. -/
def applyAssignment (clock : Option String) (r : Register) (stage : String)
    (expr : Expr) : Register :=
  let r := match clock, r.clock with
           | some c, none => { r with clock := some c }
           | _, _ => r
  r.record_drivers stage (collectIds expr)

/-- `_handle_assignment`: resolve the left-hand side, pair targets with
the right-hand side and fold the per-triple update over the module.  The
source mutates the shared `Register` object; the embedding updates the
module's entry at the register's name (its unique key). -/
def handle_assignment (clock : Option String) (m : Module) (left : LNode)
    (right : Expr) : Module :=
  match left with
  | .notLvalue => m
  | .lvalue var =>
    if (resolve_targets m var).isEmpty then m
    else
      (pair_targets_with_rhs (resolve_targets m var) right).foldl
        (fun m t =>
          { m with registers :=
              (updateValue m.registers t.1.name
                (fun r => applyAssignment clock r t.2.1 t.2.2)) })
        m

-- Statement traversal.  The current clock is the always block's extracted
-- clock for its whole nested scope (the builder's clock stack pushed on
-- entering the block); `IfStatement` has no visit method, so its children
-- are walked generically (the condition expression has no effect).
mutual
/-- See the comment above `mutual`: one statement. -/
def visitStmt (clock : Option String) (m : Module) : Stmt → Module
  | .block stmts => visitStmtList clock m stmts
  | .ifStmt _ thenS elseS => visitStmt clock (visitStmt clock m thenS) elseS
  | .skip => m
  | .blocking left right => handle_assignment clock m left right
  | .nonblocking left right => handle_assignment clock m left right
/-- The statements of a `Block`, in order. -/
def visitStmtList (clock : Option String) (m : Module) : List Stmt → Module
  | [] => m
  | s :: rest => visitStmtList clock (visitStmt clock m s) rest
end

/-- `visit_Decl`: register declarations are recorded with
`registers.setdefault(name, Register(...))` and then — also for an
already-present register — `register.bit_indices` is assigned from the
declaration's width; wire declarations use `nets.setdefault` only. -/
def visitDeclEntry (m : Module) : DeclEntry → Module
  | .reg name width =>
    { m with registers :=
        (updateValue (dictSetdefault m.registers name { name := name, module := m.name })
          name (fun r => { r with bit_indices := bitIndicesFromWidth width })) }
  | .wire name =>
    { m with nets := dictSetdefault m.nets name { name := name, kind := "wire" } }
  | .otherDecl => m

/-- One module item: declarations, always blocks (which set the current
clock for their statement), port direction declarations (added to the
port set), and everything else (no effect). -/
def visitItem (m : Module) : Item → Module
  | .decl entries => entries.foldl visitDeclEntry m
  | .always sens stmt => visitStmt (extract_clock sens) m stmt
  | .inputPort name => { m with ports := insert name m.ports }
  | .outputPort name => { m with ports := insert name m.ports }
  | .inoutPort name => { m with ports := insert name m.ports }
  | .otherItem => m

/-- The items of a module body, in order. -/
def visitItemList (m : Module) : List Item → Module
  | [] => m
  | item :: rest => visitItemList (visitItem m item) rest

/-- `visit_ModuleDef`: build the module from an empty scope and register
it under its name (`self.modules[module.name] = module`, last write
wins). -/
def visitModuleDef (modules : List (String × Module)) (md : ModuleAST) :
    List (String × Module) :=
  dictSet modules md.name (visitItemList { name := md.name } md.items)

/-- `_DesignBuilder` run over the whole source tree: every module
definition of every file, in order. -/
def buildDesign (asts : List ModuleAST) : DesignGraph :=
  { modules := asts.foldl visitModuleDef [] }

/-- The exceptions `parse_design` raises. -/
inductive ParseError where
  | valueError (msg : String)
  | fileNotFoundError (msg : String)
deriving DecidableEq

/-- One input file as the embedding sees it: its path and, when the file
exists on disk, the module definitions the external parser produces for
it (`none` models a missing file). -/
structure InputFile where
  path : String
  content : Option (List ModuleAST)

/-- `parse_design`: reject an empty file list with `ValueError` before
anything else; then reject missing files with `FileNotFoundError`; then
parse and build the design graph. -/
def parse_design (files : List InputFile) : Except ParseError DesignGraph :=
  if files.isEmpty then
    .error (.valueError "no input files were provided")
  else
    let missing := (files.filter (fun f => f.content.isNone)).map InputFile.path
    if missing.isEmpty then
      .ok (buildDesign (files.flatMap (fun f => f.content.getD [])))
    else
      .error (.fileNotFoundError
        ("the following design files are missing: " ++ String.intercalate ", " missing))

/-- `ClockDomain`: the registers associated with one clock signal. -/
structure ClockDomain where
  name : String
  registers : Finset String := ∅
deriving DecidableEq

/-- `Crossing`: one observed clock-domain crossing. -/
structure Crossing where
  module : String
  signal : String
  register : String
  source_domain : Option String
  target_domain : Option String
  safe : Bool
  reason : String
  rule : String := "unsafe_crossing"
deriving DecidableEq

/-- `AnalysisReport`: aggregated analysis data. -/
structure AnalysisReport where
  clock_domains : List (String × ClockDomain)
  crossings : List Crossing
  disabled_rules : Finset String := ∅

/-- `AnalysisReport.violations`: the crossings that are unsafe and whose
rule is not disabled, in their original order. -/
def AnalysisReport.violations (r : AnalysisReport) : List Crossing :=
  r.crossings.filter (fun c => !c.safe && !(decide (c.rule ∈ r.disabled_rules)))

/-- `AnalysisReport.has_violations`: `bool(self.violations())`. -/
def AnalysisReport.has_violations (r : AnalysisReport) : Bool :=
  !r.violations.isEmpty

/-- `AnalysisReport.exit_code`: 1 when there are violations, else 0. -/
def AnalysisReport.exit_code (r : AnalysisReport) : Nat :=
  if r.has_violations then 1 else 0

/-- `domains.setdefault(clock, ClockDomain(name=clock))` followed by
`domain.registers.add(name)`: insert the register name into the domain at
the clock key, creating the domain when absent. -/
def addRegToDomain : List (String × ClockDomain) → String → String →
    List (String × ClockDomain)
  | [], ck, n => [(ck, { name := ck, registers := {n} })]
  | (k, d) :: rest, ck, n =>
    if k = ck then (k, { d with registers := insert n d.registers }) :: rest
    else (k, d) :: addRegToDomain rest ck n

/-- The loop body of `derive_clock_domains`: skip registers with no
clock, otherwise add the register to its clock's domain. -/
def deriveStep (domains : List (String × ClockDomain)) (register : Register) :
    List (String × ClockDomain) :=
  match register.clock with
  | none => domains
  | some ck => addRegToDomain domains ck register.name

/-- `derive_clock_domains`: fold the step over every register of the
design. -/
def derive_clock_domains (design : DesignGraph) : List (String × ClockDomain) :=
  (iter_registers design).foldl deriveStep []

/-- `_collect_module_registers`: `{module.name: module.registers}` built
over `iter_modules()` (a dict comprehension: later duplicate names
overwrite earlier ones). -/
def collect_module_registers (design : DesignGraph) :
    List (String × List (String × Register)) :=
  design.modules.foldl (fun acc p => dictSet acc p.2.name p.2.registers) []

/-- Python evaluates `candidate.drivers == {register.name}` with a dict on
the left and a set on the right; values of different builtin types are
never equal, so the comparison is `False` for every argument pair. -/
def pyDictEqSet (_d : List (String × Finset String)) (_s : Finset String) : Bool :=
  false

/-- `_is_synchronized`: scan the module's registers for a candidate other
than the target (`candidate is register`; one object per key, so name
equality stands for identity) with the same clock whose driver dict
"equals" the singleton of the target's name — a dict/set comparison, see
`pyDictEqSet`. -/
def is_synchronized (register : Register) (module : Module) : Bool :=
  module.registers.any (fun cp =>
    if cp.2.name = register.name then false
    else if cp.2.clock ≠ register.clock then false
    else pyDictEqSet cp.2.drivers {register.name})

/-- The body of the innermost loop of `classify_crossings` for one
`(module, register, signal)` triple, where `signal` ranges over
`sorted(register.drivers)` — the sorted stage keys of the driver dict.
Returns the emitted crossing, or `none` when the source domain equals the
target domain.  (`module_regs[module.name]` cannot raise: the dict was
built from the same modules; the embedding defaults to the empty dict.) -/
def crossingFor (module_regs : List (String × List (String × Register)))
    (module : Module) (register : Register) (signal : String) : Option Crossing :=
  let target_domain := register.clock
  let source_reg := lookupA ((lookupA module_regs module.name).getD []) signal
  let source_domain := match source_reg with
                       | some sr => sr.clock
                       | none => none
  if source_domain = target_domain then none
  else
    let initial : Bool × String :=
      (false, if source_domain = none then "combinational path" else "async source")
    let verdict :=
      if source_domain ≠ target_domain ∧ target_domain ≠ none then
        if is_synchronized register module then (true, "two-stage synchronizer")
        else initial
      else initial
    some { module := module.name, signal := signal, register := register.name,
           source_domain := source_domain, target_domain := target_domain,
           safe := verdict.1, reason := verdict.2 }

/-- `classify_crossings`: for every module, every register, and every key
of the register's driver dict in sorted order, emit the crossing
`crossingFor` produces, in iteration order. -/
def classify_crossings (design : DesignGraph) : List Crossing :=
  let module_regs := collect_module_registers design
  design.modules.flatMap (fun mp =>
    mp.2.registers.flatMap (fun rp =>
      (sortStrings (rp.2.drivers.map Prod.fst)).filterMap
        (crossingFor module_regs mp.2 rp.2)))

/-- `analyze_design`: derive domains, classify crossings, wrap them into a
report together with the disabled-rule set. -/
def analyze_design (design : DesignGraph) (disabled_rules : Finset String) :
    AnalysisReport :=
  { clock_domains := derive_clock_domains design,
    crossings := classify_crossings design,
    disabled_rules := disabled_rules }

/-!  Concrete designs used by individual claims. -/

/-- The design graph of claim C1: one module `top` with one register `q`
clocked by `clk`, whose driver relation records the identifier `d` (not a
register of the module) as the source feeding `q`. -/
def c1design : DesignGraph :=
  { modules := [("top",
      { name := "top",
        registers := [("q",
          { name := "q", module := "top", clock := some "clk",
            drivers := [("q", {"d"})] })] })] }

/-- The design graph of claim C2: module `m2` with `data_a` on clock
`clkA`, `stage1` on clock `clkB` driven by `data_a`, and `stage2` on clock
`clkB` whose entire driver relation is the single stage `stage2` fed only
by `stage1`. -/
def c2design : DesignGraph :=
  { modules := [("m2",
      { name := "m2",
        registers :=
          [ ("data_a", { name := "data_a", module := "m2", clock := some "clkA" }),
            ("stage1",
              { name := "stage1", module := "m2", clock := some "clkB",
                drivers := [("stage1", {"data_a"})] }),
            ("stage2",
              { name := "stage2", module := "m2", clock := some "clkB",
                drivers := [("stage2", {"stage1"})] }) ] })] }

/-- A design whose classification output is non-empty: register `q`
(clock `clk`) has a per-bit stage key `q[0]`, which does not resolve to a
register, so a crossing is emitted for it. -/
def c2wdesign : DesignGraph :=
  { modules := [("w",
      { name := "w",
        registers := [("q",
          { name := "q", module := "w", clock := some "clk",
            drivers := [("q[0]", {"din"})] })] })] }

/-- The crossing `classify_crossings` emits for `c2wdesign`. -/
def c2wcrossing : Crossing :=
  { module := "w", signal := "q[0]", register := "q", source_domain := none,
    target_domain := some "clk", safe := false, reason := "combinational path" }

/-!  Theorems for the claims. -/

/-- C1 (code_bug evidence): on the single-module design of the claim —
register `q` clocked by `clk` whose driver relation records identifier `d`
as the source feeding it — `classify_crossings` returns no crossing at
all, not the claimed single unsafe "combinational path" crossing.  The
loop `for signal in sorted(register.drivers)` iterates the *stage keys* of
the driver dict, so the only examined name is `q` itself, which resolves
to the register being checked (same domain) and is suppressed. -/
theorem C1_classify_returns_nothing : classify_crossings c1design = [] := by
  decide

/-- Helper: `_is_synchronized` can never return `True`, because
`candidate.drivers == {register.name}` compares a dict with a set. -/
theorem is_synchronized_eq_false (r : Register) (m : Module) :
    is_synchronized r m = false := by
  unfold is_synchronized
  rw [List.any_eq_false]
  intro cp _
  by_cases h1 : cp.2.name = r.name <;> by_cases h2 : cp.2.clock ≠ r.clock <;>
    simp [h1, h2, pyDictEqSet]

/-- C2 counterexample: on the two-stage module of the claim (`stage1` on
`clkB` driven by `data_a` of domain `clkA`, `stage2` on `clkB` driven
solely by `stage1`), `classify_crossings` emits no crossing whatsoever —
in particular neither the claimed unsafe "async source" crossing into
`stage1` nor the claimed safe "two-stage synchronizer" crossing into
`stage2` exists. -/
theorem C2_no_crossing_emitted : classify_crossings c2design = [] := by
  decide

/-- Helper: whatever `crossingFor` emits is unsafe and not labelled as a
synchronizer (the override branch is dead, see `pyDictEqSet`). -/
theorem crossingFor_unsafe (mr : List (String × List (String × Register)))
    (M : Module) (r : Register) (s : String) (c : Crossing)
    (h : crossingFor mr M r s = some c) :
    c.safe = false ∧ c.reason ≠ "two-stage synchronizer" := by
  unfold crossingFor at h
  rw [is_synchronized_eq_false] at h
  simp only [Bool.false_eq_true, if_false, ite_self] at h
  split at h
  · exact absurd h (by simp)
  · rw [Option.some_inj] at h
    subst h
    refine ⟨rfl, ?_⟩
    show (if _ = none then "combinational path" else "async source") ≠ _
    split <;> decide

/-- C2 (amended): every crossing `classify_crossings` emits carries
`safe = False`, and its reason is never "two-stage synchronizer": the
synchronizer override is dead code because `_is_synchronized` compares a
dict with a set and always returns `False`. -/
theorem C2_no_crossing_is_safe (design : DesignGraph) (c : Crossing)
    (hc : c ∈ classify_crossings design) :
    c.safe = false ∧ c.reason ≠ "two-stage synchronizer" := by
  unfold classify_crossings at hc
  simp only [List.mem_flatMap, List.mem_filterMap] at hc
  obtain ⟨mp, -, rp, -, s, -, hemit⟩ := hc
  exact crossingFor_unsafe _ _ _ _ _ hemit

/-- C2 witness for the amended theorem: the concrete crossing emitted for
`c2wdesign` is unsafe and not labelled as a synchronizer. -/
theorem C2_no_crossing_is_safe_witness :
    c2wcrossing.safe = false ∧ c2wcrossing.reason ≠ "two-stage synchronizer" :=
  C2_no_crossing_is_safe c2wdesign c2wcrossing (by decide)

/-- C10: `parse_design` applied to an empty input list fails with the
`ValueError` raised before the existence check, the external parse and the
graph construction; no design graph — not even a partial one — is
returned. -/
theorem C10_empty_input_rejected :
    parse_design [] = Except.error (ParseError.valueError "no input files were provided")
      ∧ ∀ g : DesignGraph, parse_design [] ≠ Except.ok g := by
  constructor
  · rfl
  · intro g h
    simp [parse_design] at h

/-- C7: `violations()` is the subsequence of `crossings` (original order)
holding exactly the unsafe crossings whose rule is not disabled;
`exit_code()` is 0 exactly when there is no violation and 1 (nonzero)
otherwise; and on a report whose unsafe crossings all carry rule
`unsafe_crossing`, disabling that rule empties `violations()`, makes
`exit_code()` 0 and leaves the raw `crossings` list untouched. -/
theorem C7_violations_exit_code (r : AnalysisReport) :
    r.violations.Sublist r.crossings
      ∧ (∀ c : Crossing,
          c ∈ r.violations ↔ c ∈ r.crossings ∧ c.safe = false ∧ c.rule ∉ r.disabled_rules)
      ∧ (r.exit_code = 0 ↔ r.violations = [])
      ∧ (r.violations ≠ [] → r.exit_code = 1)
      ∧ ((∀ c ∈ r.crossings, c.safe = false → c.rule = "unsafe_crossing") →
          (AnalysisReport.violations
              { r with disabled_rules := insert "unsafe_crossing" r.disabled_rules } = []
            ∧ AnalysisReport.exit_code
              { r with disabled_rules := insert "unsafe_crossing" r.disabled_rules } = 0
            ∧ AnalysisReport.crossings
              { r with disabled_rules := insert "unsafe_crossing" r.disabled_rules }
              = r.crossings)) := by
  refine ⟨List.filter_sublist _, ?_, ?_, ?_, ?_⟩
  · intro c
    simp [AnalysisReport.violations, List.mem_filter]
  · constructor
    · intro h
      by_contra hne
      simp [AnalysisReport.exit_code, AnalysisReport.has_violations, hne] at h
    · intro h
      simp [AnalysisReport.exit_code, AnalysisReport.has_violations, h]
  · intro h
    simp [AnalysisReport.exit_code, AnalysisReport.has_violations, h]
  · intro hall
    have hv : AnalysisReport.violations
        { r with disabled_rules := insert "unsafe_crossing" r.disabled_rules } = [] := by
      unfold AnalysisReport.violations
      rw [List.filter_eq_nil_iff]
      intro c hcmem
      by_cases hs : c.safe
      · simp [hs]
      · have := hall c hcmem (by simpa using hs)
        simp [hs, this]
    refine ⟨hv, ?_, rfl⟩
    simp [AnalysisReport.exit_code, AnalysisReport.has_violations, hv]

/-- A concrete report with one unsafe `unsafe_crossing` crossing, used to
witness C7. -/
def c7report : AnalysisReport :=
  { clock_domains := [],
    crossings := [c2wcrossing] }

/-- C7 witness: instantiating the theorem at `c7report` and discharging
its hypotheses shows the suppression scenario concretely. -/
theorem C7_violations_exit_code_witness :
    AnalysisReport.violations
        { c7report with disabled_rules := insert "unsafe_crossing" c7report.disabled_rules } = []
      ∧ AnalysisReport.exit_code
        { c7report with disabled_rules := insert "unsafe_crossing" c7report.disabled_rules } = 0
      ∧ AnalysisReport.crossings
        { c7report with disabled_rules := insert "unsafe_crossing" c7report.disabled_rules }
        = c7report.crossings :=
  (C7_violations_exit_code c7report).2.2.2.2 (by decide)

/-- The resolution step of the claim: the clock of the same-module
register a driving name resolves to, `None` when no register of that name
exists in the module (lines 90–91 of the analyzer). -/
def sourceDomainIn (M : Module) (s : String) : Option String :=
  match lookupA M.registers s with
  | some sr => sr.clock
  | none => none

/-- Well-formedness every builder-produced graph has: module names are
distinct and equal their dict keys, and within each module register names
are distinct and equal their dict keys (Python dicts cannot hold duplicate
keys, and both dicts are keyed by the object's own name). -/
def WFGraph (design : DesignGraph) : Prop :=
  (design.modules.map (fun p => p.2.name)).Nodup
    ∧ ∀ p ∈ design.modules,
        p.2.name = p.1
          ∧ (p.2.registers.map Prod.fst).Nodup
          ∧ ∀ q ∈ p.2.registers, q.2.name = q.1

instance (design : DesignGraph) : Decidable (WFGraph design) := by
  unfold WFGraph
  infer_instance

/-- `lookupA` after `dictSet`. -/
theorem lookupA_dictSet {α : Type} (d : List (String × α)) (k : String) (v : α)
    (k' : String) :
    lookupA (dictSet d k v) k' = if k = k' then some v else lookupA d k' := by
  induction d with
  | nil =>
    by_cases h : k = k' <;> simp [dictSet, lookupA, h]
  | cons p rest ih =>
    obtain ⟨pk, pv⟩ := p
    by_cases h1 : pk = k
    · subst h1
      by_cases h2 : pk = k' <;> simp [dictSet, lookupA, h2]
    · by_cases h2 : pk = k'
      · subst h2
        have hk : ¬(k = pk) := fun h => h1 h.symm
        simp [dictSet, lookupA, h1, hk]
      · simp [dictSet, lookupA, h1, h2, ih]

/-- Folding `collect_module_registers`'s step over modules none of which
carries the looked-up name leaves the lookup unchanged. -/
theorem lookupA_collect_fold_of_absent (l : List (String × Module))
    (acc : List (String × List (String × Register))) (nm : String)
    (h : ∀ q ∈ l, q.2.name ≠ nm) :
    lookupA (l.foldl (fun acc p => dictSet acc p.2.name p.2.registers) acc) nm
      = lookupA acc nm := by
  induction l generalizing acc with
  | nil => rfl
  | cons p rest ih =>
    simp only [List.foldl_cons]
    rw [ih _ (fun q hq => h q (List.mem_cons_of_mem _ hq)), lookupA_dictSet,
      if_neg (h p (List.mem_cons_self _ _))]

/-- Lookup after folding the collection step over a list of modules with
distinct names: each member's name maps to its register dict. -/
theorem lookupA_collect_fold (l : List (String × Module))
    (acc : List (String × List (String × Register)))
    (mp : String × Module) (hmp : mp ∈ l)
    (hnodup : (l.map (fun p => p.2.name)).Nodup) :
    lookupA (l.foldl (fun acc p => dictSet acc p.2.name p.2.registers) acc) mp.2.name
      = some mp.2.registers := by
  induction l generalizing acc with
  | nil => exact absurd hmp (List.not_mem_nil mp)
  | cons p rest ih =>
    simp only [List.map_cons, List.nodup_cons] at hnodup
    simp only [List.foldl_cons]
    rcases List.mem_cons.mp hmp with h | h
    · subst h
      rw [lookupA_collect_fold_of_absent _ _ _
          (fun q hq hqe =>
            hnodup.1 (by rw [← hqe]; exact List.mem_map_of_mem _ hq)),
        lookupA_dictSet, if_pos rfl]
    · exact ih _ h hnodup.2

/-- Under distinct module names, `_collect_module_registers` maps each
module's name to that module's register dict. -/
theorem lookupA_collect_module_registers (design : DesignGraph)
    (hnodup : (design.modules.map (fun p => p.2.name)).Nodup)
    (mp : String × Module) (hmp : mp ∈ design.modules) :
    lookupA (collect_module_registers design) mp.2.name = some mp.2.registers := by
  unfold collect_module_registers
  exact lookupA_collect_fold design.modules [] mp hmp hnodup

/-- Two entries of a list with distinct projections and equal projections
are the same entry. -/
theorem entry_eq_of_proj {α : Type} (f : α → String) (l : List α)
    (hnodup : (l.map f).Nodup) {p q : α} (hp : p ∈ l) (hq : q ∈ l)
    (h : f p = f q) : p = q := by
  induction l with
  | nil => exact absurd hp (List.not_mem_nil _)
  | cons a t ih =>
    simp only [List.map_cons, List.nodup_cons] at hnodup
    rcases List.mem_cons.mp hp with hp1 | hp1 <;>
      rcases List.mem_cons.mp hq with hq1 | hq1
    · exact hp1.trans hq1.symm
    · subst hp1
      exact absurd (h ▸ List.mem_map_of_mem f hq1) hnodup.1
    · subst hq1
      exact absurd (h ▸ List.mem_map_of_mem f hp1) hnodup.1
    · exact ih hnodup.2 hp1 hq1

/-- Helper: all fields of a crossing `crossingFor` emits. -/
theorem crossingFor_spec (mr : List (String × List (String × Register)))
    (M : Module) (r : Register) (s : String) (c : Crossing)
    (h : crossingFor mr M r s = some c) :
    c.module = M.name ∧ c.register = r.name ∧ c.signal = s
      ∧ c.target_domain = r.clock
      ∧ c.source_domain = (match lookupA ((lookupA mr M.name).getD []) s with
                           | some sr => sr.clock
                           | none => none)
      ∧ c.source_domain ≠ c.target_domain := by
  unfold crossingFor at h
  simp only at h
  split at h
  · exact absurd h (by simp)
  · rw [Option.some_inj] at h
    subst h
    refine ⟨rfl, rfl, rfl, rfl, rfl, ?_⟩
    assumption

/-- C3: every crossing `classify_crossings` returns has a source domain
different from its target domain; and for a register and a driver name
whose same-module resolution yields the register's own clock (including
both being `None`), no crossing for that (module, register, driver) pair
is emitted. -/
theorem C3_same_domain_never_crosses (design : DesignGraph) (hwf : WFGraph design) :
    (∀ c ∈ classify_crossings design, c.source_domain ≠ c.target_domain)
      ∧ ∀ mp ∈ design.modules, ∀ rp ∈ mp.2.registers, ∀ s : String,
          sourceDomainIn mp.2 s = rp.2.clock →
          ∀ c ∈ classify_crossings design,
            ¬(c.module = mp.1 ∧ c.register = rp.2.name ∧ c.signal = s) := by
  constructor
  · intro c hc
    unfold classify_crossings at hc
    simp only [List.mem_flatMap, List.mem_filterMap] at hc
    obtain ⟨mp, -, rp, -, s, -, hemit⟩ := hc
    exact (crossingFor_spec _ _ _ _ _ hemit).2.2.2.2.2
  · intro mp hmp rp hrp s hsrc c hc hcontra
    obtain ⟨hcm, hcr, hcs⟩ := hcontra
    unfold classify_crossings at hc
    simp only [List.mem_flatMap, List.mem_filterMap] at hc
    obtain ⟨mp', hmp', rp', hrp', s', -, hemit⟩ := hc
    obtain ⟨hm, hr, hs, htgt, hsrcdom, hneq⟩ := crossingFor_spec _ _ _ _ _ hemit
    have hmpname : mp.2.name = mp.1 := (hwf.2 mp hmp).1
    have hnames : mp'.2.name = mp.2.name := by rw [← hm, hcm, hmpname]
    have hmpeq : mp' = mp :=
      entry_eq_of_proj (fun p => p.2.name) design.modules hwf.1 hmp' hmp hnames
    rw [hmpeq] at hrp' hsrcdom
    have hregnames : (mp.2.registers.map (fun q => q.2.name)).Nodup := by
      have hcongr : mp.2.registers.map (fun q => q.2.name) = mp.2.registers.map Prod.fst :=
        List.map_congr_left (fun q hq => (hwf.2 mp hmp).2.2 q hq)
      rw [hcongr]
      exact (hwf.2 mp hmp).2.1
    have hrnames : rp'.2.name = rp.2.name := by rw [← hr, hcr]
    have hrpeq : rp' = rp :=
      entry_eq_of_proj (fun q => q.2.name) mp.2.registers hregnames hrp' hrp hrnames
    rw [hrpeq] at htgt
    have hseq : s' = s := by rw [← hs, hcs]
    rw [hseq] at hsrcdom
    rw [lookupA_collect_module_registers design hwf.1 mp hmp] at hsrcdom
    apply hneq
    rw [hsrcdom, htgt]
    simpa [sourceDomainIn, Option.getD] using hsrc

/-- A design whose classification output is non-empty, witnessing C3. -/
def c3design : DesignGraph :=
  { modules := [("m3",
      { name := "m3",
        registers := [("q",
          { name := "q", module := "m3", clock := some "clk",
            drivers := [("q[0]", {"din"})] })] })] }

/-- The crossing emitted for `c3design`. -/
def c3cross : Crossing :=
  { module := "m3", signal := "q[0]", register := "q", source_domain := none,
    target_domain := some "clk", safe := false, reason := "combinational path" }

/-- C3 witness: the concrete emitted crossing has distinct source and
target domains. -/
theorem C3_same_domain_never_crosses_witness :
    c3cross.source_domain ≠ c3cross.target_domain :=
  (C3_same_domain_never_crosses c3design (by decide)).1 c3cross (by decide)

/-- A qualifying sensitivity entry of the claim: a `Sens` node that is
edge-triggered (`posedge`/`negedge`) and whose target is a plain
identifier; the extracted name. -/
def edgeIdentName : SensEntry → Option String
  | .sens ty (.identSig n) =>
    if ty = "posedge" ∨ ty = "negedge" then some n else none
  | .sens _ .otherSig => none
  | .other => none

/-- The names of the qualifying edge entries, in list order. -/
def edgeIdentNames (entries : List SensEntry) : List String :=
  entries.filterMap edgeIdentName

/-- A non-empty list has a last element. -/
theorem getLastSomeOfCons {α : Type} (b : α) (t : List α) :
    ∃ m, (b :: t).getLast? = some m := by
  induction t generalizing b with
  | nil => exact ⟨b, rfl⟩
  | cons c t ih =>
    rw [List.getLast?_cons_cons]
    exact ih c

/-- The scan with an arbitrary remembered candidate: the first
non-reset-looking qualifying name, else the last qualifying name, else
the remembered candidate. -/
theorem extractClockAux_eq (entries : List SensEntry) (last : Option String) :
    extractClockAux entries last =
      match (edgeIdentNames entries).find? (fun n => !looksLikeReset n) with
      | some n => some n
      | none =>
        match (edgeIdentNames entries).getLast? with
        | some n => some n
        | none => last := by
  induction entries generalizing last with
  | nil => rfl
  | cons e rest ih =>
    match e with
    | .other =>
      show extractClockAux rest last = _
      rw [ih]
      rfl
    | .sens ty .otherSig =>
      show extractClockAux rest last = _
      rw [ih]
      rfl
    | .sens ty (.identSig n) =>
      have hstep : extractClockAux (SensEntry.sens ty (.identSig n) :: rest) last
          = if ty = "posedge" ∨ ty = "negedge" then
              (if looksLikeReset n then extractClockAux rest (some n) else some n)
            else extractClockAux rest last := rfl
      by_cases hedge : ty = "posedge" ∨ ty = "negedge"
      · have hnames : edgeIdentNames (SensEntry.sens ty (.identSig n) :: rest)
            = n :: edgeIdentNames rest := by
          simp [edgeIdentNames, edgeIdentName, hedge]
        rw [hstep, if_pos hedge, hnames]
        cases hr : looksLikeReset n with
        | true =>
          rw [if_pos (by simp [hr]), ih,
            List.find?_cons_of_neg _ (by simp [hr])]
          cases hfr : (edgeIdentNames rest).find? (fun n => !looksLikeReset n) with
          | some m => rfl
          | none =>
            cases hlast : edgeIdentNames rest with
            | nil => rfl
            | cons b t =>
              obtain ⟨m, hm⟩ := getLastSomeOfCons b t
              rw [List.getLast?_cons_cons, hm]
        | false =>
          rw [if_neg (by simp [hr]), List.find?_cons_of_pos _ (by simp [hr])]
      · have hnames : edgeIdentNames (SensEntry.sens ty (.identSig n) :: rest)
            = edgeIdentNames rest := by
          simp [edgeIdentNames, edgeIdentName, hedge]
        rw [hstep, if_neg hedge, hnames, ih]

/-- C4: the functional clock of a sensitivity list is the first
edge-triggered plain-identifier entry whose name does not look like a
reset (case-insensitive substring match against
`rst`/`reset`/`areset`/`srst`/`clr`); when all such entries look like
resets it is the last of them; and with no qualifying edge entry at all,
no clock is inferred. -/
theorem C4_extract_clock_precedence (entries : List SensEntry) :
    extract_clock entries =
      match (edgeIdentNames entries).find? (fun n => !looksLikeReset n) with
      | some n => some n
      | none => (edgeIdentNames entries).getLast? := by
  unfold extract_clock
  rw [extractClockAux_eq]
  cases (edgeIdentNames entries).find? (fun n => !looksLikeReset n) with
  | some m => rfl
  | none =>
    cases (edgeIdentNames entries).getLast? with
    | some m => rfl
    | none => rfl

/-- The register names a run of `derive_clock_domains` puts into the
domain of clock `ck`: the names of the registers whose clock is exactly
`some ck`, as a set. -/
def clockedNames (regs : List Register) (ck : String) : Finset String :=
  ((regs.filter (fun r => decide (r.clock = some ck))).map Register.name).toFinset

/-- `lookupA` after `addRegToDomain`. -/
theorem lookupA_addRegToDomain (d : List (String × ClockDomain)) (ck n ck' : String) :
    lookupA (addRegToDomain d ck n) ck' =
      if ck = ck' then
        match lookupA d ck' with
        | some dom => some { dom with registers := insert n dom.registers }
        | none => some { name := ck', registers := {n} }
      else lookupA d ck' := by
  induction d with
  | nil =>
    by_cases h : ck = ck'
    · subst h
      simp [addRegToDomain, lookupA]
    · simp [addRegToDomain, lookupA, h]
  | cons p rest ih =>
    obtain ⟨pk, pd⟩ := p
    by_cases h1 : pk = ck
    · subst h1
      by_cases h2 : pk = ck'
      · subst h2
        simp [addRegToDomain, lookupA]
      · simp [addRegToDomain, lookupA, h2]
    · by_cases h2 : pk = ck'
      · subst h2
        have hck : ¬(ck = pk) := fun h => h1 h.symm
        simp [addRegToDomain, lookupA, h1, hck]
      · simp [addRegToDomain, lookupA, h1, h2, ih]

/-- Registers with no clock, or another clock, leave `clockedNames`
untouched at the head of the list. -/
theorem clockedNames_cons_skip (r : Register) (rest : List Register) (ck : String)
    (h : r.clock ≠ some ck) :
    clockedNames (r :: rest) ck = clockedNames rest ck := by
  simp [clockedNames, List.filter_cons, h]

/-- A register clocked by `ck` contributes its name. -/
theorem clockedNames_cons_hit (r : Register) (rest : List Register) (ck : String)
    (h : r.clock = some ck) :
    clockedNames (r :: rest) ck = insert r.name (clockedNames rest ck) := by
  simp [clockedNames, List.filter_cons, h]

/-- Characterization of the fold underlying `derive_clock_domains` when
the accumulator already holds a domain for the clock. -/
theorem deriveFold_lookup_some (regs : List Register)
    (acc : List (String × ClockDomain)) (ck : String) (dom : ClockDomain)
    (h : lookupA acc ck = some dom) :
    lookupA (regs.foldl deriveStep acc) ck
      = some { dom with registers := dom.registers ∪ clockedNames regs ck } := by
  induction regs generalizing acc dom with
  | nil =>
    rw [List.foldl_nil, h, Option.some_inj]
    cases dom
    simp [clockedNames]
  | cons r rest ih =>
    rw [List.foldl_cons]
    cases hclock : r.clock with
    | none =>
      have hstep : deriveStep acc r = acc := by simp [deriveStep, hclock]
      rw [hstep, clockedNames_cons_skip r rest ck (by simp [hclock]), ih acc dom h]
    | some ck' =>
      have hstep : deriveStep acc r = addRegToDomain acc ck' r.name := by
        simp [deriveStep, hclock]
      rw [hstep]
      by_cases hck : ck' = ck
      · have hclk : r.clock = some ck := by rw [hclock, hck]
        have hlook : lookupA (addRegToDomain acc ck' r.name) ck
            = some { dom with registers := insert r.name dom.registers } := by
          rw [lookupA_addRegToDomain, if_pos hck, h]
        rw [ih _ _ hlook, clockedNames_cons_hit r rest ck hclk, Option.some_inj]
        simp [Finset.insert_union, Finset.union_insert]
      · have hclk : r.clock ≠ some ck := by
          rw [hclock]
          exact fun hx => hck (Option.some_inj.mp hx)
        have hlook : lookupA (addRegToDomain acc ck' r.name) ck = some dom := by
          rw [lookupA_addRegToDomain, if_neg hck, h]
        rw [ih _ _ hlook, clockedNames_cons_skip r rest ck hclk]

/-- Characterization of the fold underlying `derive_clock_domains` when
the accumulator holds no domain for the clock yet. -/
theorem deriveFold_lookup_none (regs : List Register)
    (acc : List (String × ClockDomain)) (ck : String)
    (h : lookupA acc ck = none) :
    lookupA (regs.foldl deriveStep acc) ck
      = if clockedNames regs ck = ∅ then none
        else some { name := ck, registers := clockedNames regs ck } := by
  induction regs generalizing acc with
  | nil =>
    rw [List.foldl_nil, h, if_pos (show clockedNames [] ck = ∅ from rfl)]
  | cons r rest ih =>
    rw [List.foldl_cons]
    cases hclock : r.clock with
    | none =>
      have hstep : deriveStep acc r = acc := by simp [deriveStep, hclock]
      rw [hstep, clockedNames_cons_skip r rest ck (by simp [hclock]), ih acc h]
    | some ck' =>
      have hstep : deriveStep acc r = addRegToDomain acc ck' r.name := by
        simp [deriveStep, hclock]
      rw [hstep]
      by_cases hck : ck' = ck
      · have hclk : r.clock = some ck := by rw [hclock, hck]
        have hlook : lookupA (addRegToDomain acc ck' r.name) ck
            = some { name := ck, registers := {r.name} } := by
          rw [lookupA_addRegToDomain, if_pos hck, h]
        rw [deriveFold_lookup_some rest _ ck _ hlook,
          clockedNames_cons_hit r rest ck hclk,
          if_neg (Finset.insert_ne_empty _ _), Option.some_inj]
        have : ({r.name} : Finset String) ∪ clockedNames rest ck
            = insert r.name (clockedNames rest ck) := by
          ext x
          simp
        simp [this]
      · have hclk : r.clock ≠ some ck := by
          rw [hclock]
          exact fun hx => hck (Option.some_inj.mp hx)
        have hlook : lookupA (addRegToDomain acc ck' r.name) ck = none := by
          rw [lookupA_addRegToDomain, if_neg hck, h]
        rw [ih _ hlook, clockedNames_cons_skip r rest ck hclk]

/-- C9: looking up a clock name in the derived domains yields exactly the
set of names of registers clocked by it — present as a domain precisely
when at least one register has that clock (so registers with no clock
contribute to no domain, and no clockless domain exists) — and the
content of the result is invariant under permutation of the register
iteration order. -/
theorem C9_derive_clock_domains (design : DesignGraph) :
    (∀ ck : String, ∀ d : ClockDomain,
        lookupA (derive_clock_domains design) ck = some d →
          d.name = ck
            ∧ ∀ n : String,
                n ∈ d.registers ↔
                  ∃ r ∈ iter_registers design, r.clock = some ck ∧ r.name = n)
      ∧ (∀ ck : String,
          (∃ r ∈ iter_registers design, r.clock = some ck) →
            (lookupA (derive_clock_domains design) ck).isSome = true)
      ∧ (∀ regs regs' : List Register, regs.Perm regs' → ∀ ck : String,
          lookupA (regs.foldl deriveStep []) ck
            = lookupA (regs'.foldl deriveStep []) ck) := by
  have hmem : ∀ (regs : List Register) (ck n : String),
      n ∈ clockedNames regs ck ↔ ∃ r ∈ regs, r.clock = some ck ∧ r.name = n := by
    intro regs ck n
    simp only [clockedNames, List.mem_toFinset, List.mem_map, List.mem_filter,
      decide_eq_true_eq]
    constructor
    · rintro ⟨r, ⟨hr, hc⟩, hn⟩
      exact ⟨r, hr, hc, hn⟩
    · rintro ⟨r, hr, hc, hn⟩
      exact ⟨r, ⟨hr, hc⟩, hn⟩
  refine ⟨?_, ?_, ?_⟩
  · intro ck d hd
    unfold derive_clock_domains at hd
    rw [deriveFold_lookup_none _ [] ck rfl] at hd
    split at hd
    · exact absurd hd (by simp)
    · rw [Option.some_inj] at hd
      subst hd
      exact ⟨rfl, fun n => hmem _ _ _⟩
  · intro ck ⟨r, hr, hc⟩
    unfold derive_clock_domains
    rw [deriveFold_lookup_none _ [] ck rfl]
    rw [if_neg (fun hempty => by
      have : r.name ∈ clockedNames (iter_registers design) ck :=
        (hmem _ _ _).mpr ⟨r, hr, hc, rfl⟩
      rw [hempty] at this
      exact absurd this (Finset.not_mem_empty _))]
    rfl
  · intro regs regs' hperm ck
    rw [deriveFold_lookup_none _ [] ck rfl, deriveFold_lookup_none _ [] ck rfl]
    have hsets : clockedNames regs ck = clockedNames regs' ck := by
      unfold clockedNames
      exact List.toFinset_eq_of_perm _ _ ((hperm.filter _).map _)
    rw [hsets]

/-- A design with one clocked and one clockless register, witnessing C9. -/
def c9design : DesignGraph :=
  { modules := [("m9",
      { name := "m9",
        registers :=
          [ ("r1", { name := "r1", module := "m9", clock := some "cA" }),
            ("r2", { name := "r2", module := "m9", clock := none }) ] })] }

/-- C9 witness: the domain of `cA` exists for `c9design`. -/
theorem C9_derive_clock_domains_witness :
    (lookupA (derive_clock_domains c9design) "cA").isSome = true :=
  (C9_derive_clock_domains c9design).2.1 "cA"
    ⟨{ name := "r1", module := "m9", clock := some "cA" }, by decide, rfl⟩

/-- `lookupA` after `updateValue`: the looked-up key's value receives
`f`, every other key is unchanged. -/
theorem lookupA_updateValue {α : Type} (d : List (String × α)) (k : String)
    (f : α → α) (k' : String) :
    lookupA (updateValue d k f) k'
      = if k = k' then (lookupA d k').map f else lookupA d k' := by
  induction d with
  | nil =>
    by_cases h : k = k' <;> simp [updateValue, lookupA, h]
  | cons p rest ih =>
    obtain ⟨pk, pv⟩ := p
    by_cases h1 : pk = k
    · subst h1
      by_cases h2 : pk = k' <;> simp [updateValue, lookupA, h2]
    · by_cases h2 : pk = k'
      · subst h2
        have hk : ¬(k = pk) := fun h => h1 h.symm
        simp [updateValue, lookupA, h1, hk]
      · simp [updateValue, lookupA, h1, h2, ih]

/-- `dictSetdefault` with a present key is the identity. -/
theorem dictSetdefault_of_present {α : Type} (d : List (String × α)) (k : String)
    (v w : α) (h : lookupA d k = some w) : dictSetdefault d k v = d := by
  unfold dictSetdefault
  rw [h]

/-- `lookupA` after `dictSetdefault`. -/
theorem lookupA_dictSetdefault {α : Type} (d : List (String × α)) (k : String)
    (v : α) (k' : String) :
    lookupA (dictSetdefault d k v) k'
      = if k = k' then
          match lookupA d k with
          | some w => some w
          | none => some v
        else lookupA d k' := by
  have happ : ∀ (e : List (String × α)), lookupA (d ++ e) k'
      = match lookupA d k' with
        | some w => some w
        | none => lookupA e k' := by
    intro e
    induction d with
    | nil => simp [lookupA]
    | cons p rest ih =>
      obtain ⟨pk, pv⟩ := p
      by_cases h : pk = k' <;> simp [lookupA, h, ih]
  unfold dictSetdefault
  by_cases hk : k = k'
  · subst hk
    cases h : lookupA d k with
    | some w => simp [h]
    | none => simp [h, happ, lookupA]
  · cases h : lookupA d k with
    | some w => simp [hk]
    | none =>
      rw [happ]
      cases h' : lookupA d k' with
      | some w => simp [hk]
      | none => simp [lookupA, hk]

/-- The clock field `applyAssignment` produces: set from the enclosing
clock only when the register's clock is still unset. -/
theorem applyAssignment_clock (clock : Option String) (r : Register)
    (st : String) (e : Expr) :
    (applyAssignment clock r st e).clock
      = match clock, r.clock with
        | some c, none => some c
        | _, _ => r.clock := by
  cases clock <;> cases hr : r.clock <;>
    simp [applyAssignment, Register.record_drivers, hr]

/-- The driver dict `applyAssignment` produces: the stage's sources are
unioned in; the clock update does not touch the drivers. -/
theorem applyAssignment_drivers (clock : Option String) (r : Register)
    (st : String) (e : Expr) :
    (applyAssignment clock r st e).drivers
      = recordInto r.drivers st (collectIds e) := by
  cases clock <;> cases hr : r.clock <;>
    simp [applyAssignment, Register.record_drivers, hr]

/-- A register whose clock is already set keeps it through
`applyAssignment` (first writer wins). -/
theorem applyAssignment_clock_some (clock : Option String) (r : Register)
    (st : String) (e : Expr) (c : String) (h : r.clock = some c) :
    (applyAssignment clock r st e).clock = some c := by
  rw [applyAssignment_clock, h]
  cases clock <;> rfl

/-- The clock stored at a register name of a module, `none` when the
register is absent (outer `Option`) or unset (inner). -/
def clockAt (m : Module) (rn : String) : Option (Option String) :=
  (lookupA m.registers rn).map Register.clock

/-- The per-triple module updates of `_handle_assignment` preserve an
already-set clock at every register name. -/
theorem clockAt_foldUpdate (clock : Option String)
    (triples : List (Register × String × Expr)) (m : Module) (rn : String)
    (c : String) (h : clockAt m rn = some (some c)) :
    clockAt
      (triples.foldl
        (fun m t =>
          { m with registers :=
              (updateValue m.registers t.1.name
                (fun r => applyAssignment clock r t.2.1 t.2.2)) })
        m) rn = some (some c) := by
  induction triples generalizing m with
  | nil => exact h
  | cons t rest ih =>
    rw [List.foldl_cons]
    refine ih _ ?_
    unfold clockAt at h ⊢
    simp only [lookupA_updateValue]
    by_cases hk : t.1.name = rn
    · rw [if_pos hk]
      cases hl : lookupA m.registers rn with
      | none => rw [hl] at h; exact absurd h (by simp)
      | some r =>
        rw [hl] at h
        have h' : r.clock = some c := by simpa using h
        simpa using applyAssignment_clock_some clock r t.2.1 t.2.2 c h'
    · rw [if_neg hk]
      exact h

/-- `handle_assignment` preserves an already-set clock at every register
name. -/
theorem clockAt_handle_assignment (clock : Option String) (m : Module)
    (left : LNode) (right : Expr) (rn : String) (c : String)
    (h : clockAt m rn = some (some c)) :
    clockAt (handle_assignment clock m left right) rn = some (some c) := by
  cases left with
  | notLvalue => exact h
  | lvalue var =>
    show clockAt
        (if (resolve_targets m var).isEmpty = true then m
         else
           (pair_targets_with_rhs (resolve_targets m var) right).foldl
             (fun m t =>
               { m with registers :=
                   (updateValue m.registers t.1.name
                     (fun r => applyAssignment clock r t.2.1 t.2.2)) })
             m) rn = some (some c)
    by_cases he : (resolve_targets m var).isEmpty = true
    · rw [if_pos he]
      exact h
    · rw [if_neg he]
      exact clockAt_foldUpdate clock _ m rn c h

/-- `visitDeclEntry` preserves an already-set clock: the register branch
keeps the existing object (only `bit_indices` is reassigned), the wire
branch does not touch the registers. -/
theorem clockAt_visitDeclEntry (m : Module) (entry : DeclEntry) (rn : String)
    (c : String) (h : clockAt m rn = some (some c)) :
    clockAt (visitDeclEntry m entry) rn = some (some c) := by
  match entry with
  | .otherDecl => exact h
  | .wire nm => exact h
  | .reg nm w =>
    unfold clockAt at h ⊢
    simp only [visitDeclEntry, lookupA_updateValue, lookupA_dictSetdefault]
    by_cases hk : nm = rn
    · subst hk
      cases hl : lookupA m.registers nm with
      | none => rw [hl] at h; exact absurd h (by simp)
      | some r =>
        rw [hl] at h
        simp only [if_pos rfl, hl]
        simpa using h
    · rw [if_neg hk, if_neg hk]
      exact h

-- Preservation of an already-set clock through statement traversal.
mutual
/-- See the comment above `mutual`: one statement. -/
theorem clockAt_visitStmt (clock : Option String) (m : Module) (s : Stmt)
    (rn : String) (c : String) (h : clockAt m rn = some (some c)) :
    clockAt (visitStmt clock m s) rn = some (some c) :=
  match s with
  | .block stmts => clockAt_visitStmtList clock m stmts rn c h
  | .ifStmt _ thenS elseS =>
    clockAt_visitStmt clock _ elseS rn c (clockAt_visitStmt clock m thenS rn c h)
  | .skip => h
  | .blocking left right => clockAt_handle_assignment clock m left right rn c h
  | .nonblocking left right => clockAt_handle_assignment clock m left right rn c h
/-- Preservation over a statement list. -/
theorem clockAt_visitStmtList (clock : Option String) (m : Module)
    (stmts : List Stmt) (rn : String) (c : String)
    (h : clockAt m rn = some (some c)) :
    clockAt (visitStmtList clock m stmts) rn = some (some c) :=
  match stmts with
  | [] => h
  | s :: rest =>
    clockAt_visitStmtList clock _ rest rn c (clockAt_visitStmt clock m s rn c h)
end

/-- Preservation of an already-set clock through one module item. -/
theorem clockAt_visitItem (m : Module) (item : Item) (rn : String) (c : String)
    (h : clockAt m rn = some (some c)) :
    clockAt (visitItem m item) rn = some (some c) := by
  match item with
  | .otherItem => exact h
  | .inputPort nm => exact h
  | .outputPort nm => exact h
  | .inoutPort nm => exact h
  | .always sens stmt => exact clockAt_visitStmt (extract_clock sens) m stmt rn c h
  | .decl entries =>
    show clockAt (entries.foldl visitDeclEntry m) rn = some (some c)
    induction entries generalizing m with
    | nil => exact h
    | cons e rest ih =>
      rw [List.foldl_cons]
      exact ih _ (clockAt_visitDeclEntry m e rn c h)

/-- C5: once a register's clock is set (to `some c`), no later item —
including any assignment inside any clocked block, whatever its enclosing
clock — changes it; in particular, with two clocked blocks assigning the
same register, the first visited block's clock stays. -/
theorem C5_first_writer_wins (items : List Item) (m : Module) (rn : String)
    (c : String) (h : clockAt m rn = some (some c)) :
    clockAt (visitItemList m items) rn = some (some c) := by
  induction items generalizing m with
  | nil => exact h
  | cons item rest ih =>
    show clockAt (visitItemList (visitItem m item) rest) rn = some (some c)
    exact ih _ (clockAt_visitItem m item rn c h)

/-- An empty module holding only the declared register `r5`, and two
always blocks with different clocks both assigning it. -/
def c5mod0 : Module :=
  { name := "m5",
    registers := [("r5", { name := "r5", module := "m5" })] }

/-- An always block on `clkA` assigning `r5 <= a;`. -/
def c5item1 : Item :=
  .always [.sens "posedge" (.identSig "clkA")]
    (.nonblocking (.lvalue (.ident "r5")) (.ident "a"))

/-- An always block on `clkB` assigning `r5 <= b;`. -/
def c5item2 : Item :=
  .always [.sens "posedge" (.identSig "clkB")]
    (.nonblocking (.lvalue (.ident "r5")) (.ident "b"))

/-- C5 witness: after the first block sets the clock to `clkA`, the
second block (clock `clkB`) leaves it at `clkA`. -/
theorem C5_first_writer_wins_witness :
    clockAt (visitItemList (visitItem c5mod0 c5item1) [c5item2]) "r5"
      = some (some "clkA") :=
  C5_first_writer_wins [c5item2] (visitItem c5mod0 c5item1) "r5" "clkA" rfl

/-- `lookupA` over an appended list. -/
theorem lookupA_append {α : Type} (d e : List (String × α)) (k : String) :
    lookupA (d ++ e) k
      = match lookupA d k with
        | some w => some w
        | none => lookupA e k := by
  induction d with
  | nil => simp [lookupA]
  | cons p rest ih =>
    obtain ⟨pk, pv⟩ := p
    by_cases h : pk = k <;> simp [lookupA, h, ih]

/-- `recordInto` on an absent stage key appends the new entry. -/
theorem recordInto_fresh (d : List (String × Finset String)) (k : String)
    (s : Finset String) (h : lookupA d k = none) :
    recordInto d k s = d ++ [(k, s)] := by
  induction d with
  | nil => rfl
  | cons p rest ih =>
    obtain ⟨pk, pv⟩ := p
    simp only [lookupA] at h
    by_cases hk : pk = k
    · rw [if_pos hk] at h
      exact absurd h (by simp)
    · rw [if_neg hk] at h
      simp [recordInto, hk, ih h]

/-- Folding the per-triple module update over triples that all resolve to
the register name `rn` maps the iterated register update over the looked
up entry. -/
theorem lookupA_foldUpdate_all (clock : Option String)
    (triples : List (Register × String × Expr)) (m : Module) (rn : String)
    (hall : ∀ t ∈ triples, t.1.name = rn) :
    lookupA
      ((triples.foldl
        (fun m t =>
          { m with registers :=
              (updateValue m.registers t.1.name
                (fun r => applyAssignment clock r t.2.1 t.2.2)) })
        m).registers) rn
      = (lookupA m.registers rn).map
          (fun r => triples.foldl
            (fun r t => applyAssignment clock r t.2.1 t.2.2) r) := by
  induction triples generalizing m with
  | nil => simp
  | cons t rest ih =>
    simp only [List.foldl_cons]
    rw [ih _ (fun t' ht' => hall t' (List.mem_cons_of_mem _ ht'))]
    show (lookupA (updateValue m.registers t.1.name _) rn).map _ = _
    rw [lookupA_updateValue, if_pos (hall t (List.mem_cons_self _ _)),
      Option.map_map]
    cases lookupA m.registers rn <;> rfl

/-- Iterating `applyAssignment` over stages with distinct keys that are
all fresh for the register appends exactly one driver entry per stage,
holding the identifiers of that stage's expression. -/
theorem foldApply_drivers (clock : Option String)
    (ts : List (Register × String × Expr)) (r : Register)
    (hnodup : (ts.map (fun t => t.2.1)).Nodup)
    (hfresh : ∀ t ∈ ts, lookupA r.drivers t.2.1 = none) :
    (ts.foldl (fun r t => applyAssignment clock r t.2.1 t.2.2) r).drivers
      = r.drivers ++ ts.map (fun t => (t.2.1, collectIds t.2.2)) := by
  induction ts generalizing r with
  | nil => simp
  | cons t rest ih =>
    rw [List.foldl_cons]
    have hdr : (applyAssignment clock r t.2.1 t.2.2).drivers
        = r.drivers ++ [(t.2.1, collectIds t.2.2)] := by
      rw [applyAssignment_drivers,
        recordInto_fresh _ _ _ (hfresh t (List.mem_cons_self _ _))]
    simp only [List.map_cons, List.nodup_cons] at hnodup
    have hfresh' : ∀ t' ∈ rest,
        lookupA (applyAssignment clock r t.2.1 t.2.2).drivers t'.2.1 = none := by
      intro t' ht'
      rw [hdr, lookupA_append, hfresh t' (List.mem_cons_of_mem _ ht')]
      show lookupA [(t.2.1, collectIds t.2.2)] t'.2.1 = none
      simp only [lookupA]
      rw [if_neg (fun he => hnodup.1 (by
        rw [he]
        exact List.mem_map_of_mem _ ht'))]
    rw [ih _ hnodup.2 hfresh', hdr, List.append_assoc, List.singleton_append,
      List.map_cons]

/-- C6: with the whole register as only target, a known non-empty
bit-index list and a concatenation right-hand side, the assignment is
split into one per-bit stage per declared index — paired with the
flattened concatenation elements in declared order, each stage driven
only by its element's identifiers — exactly when the flattened element
count equals the bit count; otherwise a single whole-register stage
holding the full right-hand side's identifiers is recorded. -/
theorem C6_vector_decomposition (m : Module) (rn : String) (r : Register)
    (bits : List Int) (es : List Expr) (clock : Option String)
    (hr : lookupA m.registers rn = some r) (hname : r.name = rn)
    (hdrv : r.drivers = []) (hbits : r.bit_indices = some bits)
    (hne : bits ≠ []) (hnodup : (bits.map (bitStage rn)).Nodup) :
    ((flattenConcatList es).length = bits.length →
      (lookupA
          (handle_assignment clock m (.lvalue (.ident rn)) (.concat es)).registers
          rn).map Register.drivers
        = some ((bits.zip (flattenConcatList es)).map
            (fun p => (bitStage rn p.1, collectIds p.2))))
    ∧ ((flattenConcatList es).length ≠ bits.length →
      (lookupA
          (handle_assignment clock m (.lvalue (.ident rn)) (.concat es)).registers
          rn).map Register.drivers
        = some [(rn, collectIds (.concat es))]) := by
  have hres : resolve_targets m (.ident rn) = [(r, rn)] := by
    show (match lookupA m.registers rn with
          | none => ([] : List (Register × String))
          | some register => [(register, rn)]) = [(r, rn)]
    rw [hr]
  have hshow : handle_assignment clock m (.lvalue (.ident rn)) (.concat es)
      = (pair_targets_with_rhs [(r, rn)] (.concat es)).foldl
          (fun m t =>
            { m with registers :=
                (updateValue m.registers t.1.name
                  (fun r => applyAssignment clock r t.2.1 t.2.2)) })
          m := by
    show (if (resolve_targets m (.ident rn)).isEmpty = true then m
          else
            (pair_targets_with_rhs (resolve_targets m (.ident rn)) (.concat es)).foldl
              (fun m t =>
                { m with registers :=
                    (updateValue m.registers t.1.name
                      (fun r => applyAssignment clock r t.2.1 t.2.2)) })
              m) = _
    rw [hres, if_neg (by simp)]
  have hpair : pair_targets_with_rhs [(r, rn)] (.concat es)
      = if (flattenConcatList es).length = bits.length
        then (bits.zip (flattenConcatList es)).map
          (fun p => (r, bitStage r.name p.1, p.2))
        else [(r, rn, Expr.concat es)] := by
    show (match r.bit_indices, Expr.concat es with
          | some b, .concat es' =>
            if rn = r.name ∧ b ≠ [] then
              if (flattenConcatList es').length = b.length then
                (b.zip (flattenConcatList es')).map
                  (fun p : Int × Expr => (r, bitStage r.name p.1, p.2))
              else [(r, rn, Expr.concat es)]
            else [(r, rn, Expr.concat es)]
          | _, _ => [(r, rn, Expr.concat es)]) = _
    rw [hbits]
    show (if rn = r.name ∧ bits ≠ [] then _ else _) = _
    rw [if_pos ⟨hname.symm, hne⟩]
  constructor
  · intro hlen
    have hall : ∀ t ∈ (bits.zip (flattenConcatList es)).map
        (fun p => (r, bitStage r.name p.1, p.2)), t.1.name = rn := by
      intro t ht
      simp only [List.mem_map] at ht
      obtain ⟨p, -, hp⟩ := ht
      rw [← hp]
      exact hname
    have hnodup' : (((bits.zip (flattenConcatList es)).map
        (fun p => (r, bitStage r.name p.1, p.2))).map
          (fun t => t.2.1)).Nodup := by
      rw [List.map_map]
      have hmaps : ((bits.zip (flattenConcatList es)).map
          ((fun t : Register × String × Expr => t.2.1)
            ∘ fun p : Int × Expr => (r, bitStage r.name p.1, p.2)))
          = ((bits.zip (flattenConcatList es)).map Prod.fst).map (bitStage rn) := by
        rw [List.map_map]
        refine List.map_congr_left ?_
        intro p _
        show bitStage r.name p.1 = bitStage rn p.1
        rw [hname]
      rw [hmaps, List.map_fst_zip _ _ (le_of_eq hlen.symm)]
      exact hnodup
    have hfresh : ∀ t ∈ (bits.zip (flattenConcatList es)).map
        (fun p => (r, bitStage r.name p.1, p.2)),
        lookupA r.drivers t.2.1 = none := by
      intro t _
      rw [hdrv]
      rfl
    rw [hshow, hpair, if_pos hlen, lookupA_foldUpdate_all _ _ _ _ hall, hr]
    show some _ = some _
    rw [Option.some_inj, foldApply_drivers _ _ _ hnodup' hfresh, hdrv,
      List.nil_append, List.map_map]
    refine List.map_congr_left ?_
    intro p _
    show (bitStage r.name p.1, collectIds p.2) = (bitStage rn p.1, collectIds p.2)
    rw [hname]
  · intro hlen
    have hall : ∀ t ∈ [(r, rn, Expr.concat es)], t.1.name = rn := by
      intro t ht
      simp only [List.mem_singleton] at ht
      rw [ht]
      exact hname
    rw [hshow, hpair, if_neg hlen, lookupA_foldUpdate_all _ _ _ _ hall, hr]
    show some _ = some _
    rw [Option.some_inj]
    show (applyAssignment clock r rn (Expr.concat es)).drivers
        = [(rn, collectIds (Expr.concat es))]
    rw [applyAssignment_drivers, hdrv]
    rfl

/-- A module with a two-bit register `q6` (indices `[1, 0]`) and no
drivers yet, used to witness C6. -/
def c6mod : Module :=
  { name := "t6",
    registers := [("q6",
      { name := "q6", module := "t6", bit_indices := some [1, 0] })] }

/-- C6 witness: assigning `q6 <= {a, b};` records the per-bit stages
`q6[1] <- {a}` and `q6[0] <- {b}`. -/
theorem C6_vector_decomposition_witness :
    (lookupA
        (handle_assignment (some "clk") c6mod (.lvalue (.ident "q6"))
          (.concat [.ident "a", .ident "b"])).registers
        "q6").map Register.drivers
      = some ((([1, 0] : List Int).zip
            (flattenConcatList [Expr.ident "a", .ident "b"])).map
          (fun p => (bitStage "q6" p.1, collectIds p.2))) :=
  (C6_vector_decomposition c6mod "q6"
      { name := "q6", module := "t6", bit_indices := some [1, 0] }
      [1, 0] [.ident "a", .ident "b"] (some "clk")
      rfl rfl rfl rfl (by decide) (by decide)).1 (by decide)

/-- `updateValue` is the identity when the stored value is a fixpoint of
the update function. -/
theorem updateValue_eq_self {α : Type} (d : List (String × α)) (k : String)
    (f : α → α) (v : α) (h : lookupA d k = some v) (hf : f v = v) :
    updateValue d k f = d := by
  induction d with
  | nil => rfl
  | cons p rest ih =>
    obtain ⟨pk, pv⟩ := p
    simp only [lookupA] at h
    by_cases hk : pk = k
    · rw [if_pos hk] at h
      rw [Option.some_inj] at h
      subst h
      simp [updateValue, hk, hf]
    · rw [if_neg hk] at h
      simp [updateValue, hk, ih h]

/-- The module of claim C8: a register `r8` with accumulated state (clock,
bit indices, drivers) and a net `n8`, both already declared. -/
def c8mod0 : Module :=
  { name := "m8",
    nets := [("n8", { name := "n8", kind := "wire" })],
    registers := [("r8",
      { name := "r8", module := "m8", clock := some "clk",
        bit_indices := some [1, 0], drivers := [("r8", {"d8"})] })] }

/-- C8 counterexample: re-declaring `r8` without a width does NOT leave
the recorded register unchanged — `visit_Decl` reassigns `bit_indices`
from the duplicate declaration's width, so it flips from `[1, 0]` to
`None` while the claim says the first declaration wins. -/
theorem C8_redeclaration_not_idempotent :
    (lookupA (visitItem c8mod0 (.decl [.reg "r8" none])).registers "r8").map
        Register.bit_indices = some none
      ∧ (lookupA c8mod0.registers "r8").map Register.bit_indices
          = some (some [1, 0]) :=
  ⟨rfl, rfl⟩

/-- C8 (amended): re-declaring a register keeps the recorded object — its
clock and accumulated drivers — and the nets and ports, but recomputes
`bit_indices` from the duplicate declaration's width; re-declaring a net
is fully idempotent; and re-declaring a register with the *same* width
twice equals declaring it once. -/
theorem C8_redeclaration_semantics (m : Module) (n : String)
    (w : Option (Expr × Expr)) (r : Register) (net : Net) :
    (lookupA m.registers n = some r →
      lookupA (visitItem m (.decl [.reg n w])).registers n
          = some { r with bit_indices := bitIndicesFromWidth w }
        ∧ (visitItem m (.decl [.reg n w])).nets = m.nets
        ∧ (visitItem m (.decl [.reg n w])).ports = m.ports
        ∧ ∀ k : String, k ≠ n →
            lookupA (visitItem m (.decl [.reg n w])).registers k
              = lookupA m.registers k)
    ∧ (lookupA m.nets n = some net → visitItem m (.decl [.wire n]) = m)
    ∧ visitItem (visitItem m (.decl [.reg n w])) (.decl [.reg n w])
        = visitItem m (.decl [.reg n w]) := by
  refine ⟨?_, ?_, ?_⟩
  · intro h
    have hsd : dictSetdefault m.registers n { name := n, module := m.name }
        = m.registers := dictSetdefault_of_present _ _ _ _ h
    refine ⟨?_, rfl, rfl, ?_⟩
    · show lookupA
          (updateValue (dictSetdefault m.registers n { name := n, module := m.name }) n
            (fun r => { r with bit_indices := bitIndicesFromWidth w })) n
          = _
      rw [hsd, lookupA_updateValue, if_pos rfl, h]
      rfl
    · intro k hk
      show lookupA
          (updateValue (dictSetdefault m.registers n { name := n, module := m.name }) n
            (fun r => { r with bit_indices := bitIndicesFromWidth w })) k
          = _
      rw [hsd, lookupA_updateValue, if_neg (fun he => hk he.symm)]
  · intro h
    show { m with nets := dictSetdefault m.nets n { name := n, kind := "wire" } } = m
    rw [dictSetdefault_of_present _ _ _ _ h]
  · obtain ⟨u, hu⟩ : ∃ u, lookupA
        (dictSetdefault m.registers n { name := n, module := m.name }) n = some u := by
      rw [lookupA_dictSetdefault, if_pos rfl]
      cases lookupA m.registers n <;> exact ⟨_, rfl⟩
    have hu1 : lookupA (visitItem m (.decl [.reg n w])).registers n
        = some { u with bit_indices := bitIndicesFromWidth w } := by
      show lookupA
          (updateValue (dictSetdefault m.registers n { name := n, module := m.name }) n
            (fun r => { r with bit_indices := bitIndicesFromWidth w })) n
          = _
      rw [lookupA_updateValue, if_pos rfl, hu]
      rfl
    show { visitItem m (.decl [.reg n w]) with registers :=
        (updateValue
          (dictSetdefault (visitItem m (.decl [.reg n w])).registers n
            { name := n, module := (visitItem m (.decl [.reg n w])).name })
          n (fun r => { r with bit_indices := bitIndicesFromWidth w })) }
      = visitItem m (.decl [.reg n w])
    rw [dictSetdefault_of_present _ _ _ _ hu1,
      updateValue_eq_self _ _ _ _ hu1 rfl]

/-- C8 witness for the amended theorem: re-declaring the existing net
`n8` of `c8mod0` leaves the module unchanged. -/
theorem C8_redeclaration_semantics_witness :
    visitItem c8mod0 (.decl [.wire "n8"]) = c8mod0 :=
  (C8_redeclaration_semantics c8mod0 "n8" none
      { name := "r8", module := "m8", clock := some "clk",
        bit_indices := some [1, 0], drivers := [("r8", {"d8"})] }
      { name := "n8", kind := "wire" }).2.1 rfl

end Cdc
